import Mathlib

/-!
# Verification of the `local_search_rust` TF-IDF search engine core

This file is a shallow embedding, in Lean 4, of the indexing and query core of
the repository (`src/model.rs` and `src/lexer.rs`), together with theorems
settling the specification claims about it.

Modelling conventions:

* Rust `HashMap<K, V>` is modelled as an association list `List (K × V)` with
  first-occurrence lookup semantics (`aget`), in-place replace-or-append
  insertion (`aset`), and first-occurrence removal (`aremove`).  All maps the
  program builds have pairwise-distinct keys, so these operations coincide
  with hash-map behaviour; iteration order of a `HashMap` is unspecified in
  Rust, and none of the verified properties depend on it.
* `PathBuf` is modelled as `String`; `SystemTime` as `ℕ` ordered by `<`
  (only its strict order is used by the source).
* `usize` counters are modelled as `ℕ`.  Increment overflow would need
  `2 ^ 64` operations and is not modelled; the one reachable underflow
  (`*f -= 1` on a zero document-frequency counter in `remove_document`)
  panics in debug builds via Rust's overflow check, and is characterised
  exactly by the predicate `removeUnderflow` below.
* `f32` values are modelled exactly (no rounding) by the type `F32`:
  `nan`, the two infinities, and finite values represented as formal
  rational combinations `Σ c · log10 x` of logarithms of positive rationals
  (a plain rational `r` is the combination `r · log10 10`).  All special-value
  propagation (NaN, ±∞, division by zero, `log10` at `0`, `0 · ∞`) follows
  IEEE-754 on the value forms that actually occur in the program.
* The snowball English stemmer lives in `src/snowball`, which is not part of
  the sources under verification; every definition that needs it is
  parameterised by a function `stem : String → String` (see `StemSpec`).
-/

/-! ## Association-list model of `HashMap` -/

/-! ## Definitions -/

/-- First-occurrence lookup: model of `HashMap::get`. -/
def aget {α : Type} : List (String × α) → String → Option α
  | [], _ => none
  | (k', v) :: rest, k => if k' = k then some v else aget rest k

/-- Replace the first occurrence of the key, or append: model of
`HashMap::insert` (and of `*f = new` through `get_mut`). -/
def aset {α : Type} : List (String × α) → String → α → List (String × α)
  | [], k, v => [(k, v)]
  | (k', v') :: rest, k, v =>
    if k' = k then (k, v) :: rest else (k', v') :: aset rest k v

/-- Remove the first occurrence of the key: model of `HashMap::remove`. -/
def aremove {α : Type} : List (String × α) → String → List (String × α)
  | [], _ => []
  | (k', v') :: rest, k => if k' = k then rest else (k', v') :: aremove rest k

/-- The list of keys, in entry order: model of `HashMap::keys`. -/
def keysList {α : Type} (l : List (String × α)) : List String := l.map Prod.fst

/-- All keys pairwise distinct (true of every map a `HashMap` can represent). -/
def nodupKeys {α : Type} (l : List (String × α)) : Prop := (keysList l).Nodup

/-! ## The Lexer (`src/lexer.rs`)

The lexer walks a `&[char]` slice; we model the remaining slice as a
`List Char`.  Rust's Unicode character classes `char::is_alphabetic`,
`char::is_numeric` and `char::is_whitespace` are modelled by Lean's
`Char.isAlpha`, `Char.isDigit` and `Char.isWhitespace`; none of the verified
properties depend on the exact extent of these classes, only on the three
classes plus whitespace being checked in the source's order.
`char::to_ascii_lowercase` is `Char.toLower` (both lower ASCII letters only).

The stemmer invoked in the alphabetic branch is the snowball English stemmer
from `src/snowball`, which is outside the verified sources, so every
definition below is parameterised by `stem : String → String`.
-/
/-- `Lexer::trim_left`: drop leading whitespace from the remaining content. -/
def trim_left (s : List Char) : List Char := s.dropWhile Char.isWhitespace

/-- `Lexer::next_token`: returns the emitted token together with the remaining
content (the mutated `self.content`), or `none` at the end of input.
The three branches mirror the source: a maximal alphabetic run is lowered and
stemmed, a maximal numeric run is emitted verbatim, and otherwise exactly one
character is emitted verbatim. -/
def next_token (stem : String → String) (s : List Char) : Option (String × List Char) :=
  match trim_left s with
  | [] => none
  | c :: cs =>
    if c.isAlpha then
      some (stem (String.mk (((c :: cs).takeWhile Char.isAlpha).map Char.toLower)),
        (c :: cs).dropWhile Char.isAlpha)
    else if c.isDigit then
      some (String.mk ((c :: cs).takeWhile Char.isDigit),
        (c :: cs).dropWhile Char.isDigit)
    else
      some (String.mk [c], cs)

/-- Fuel-indexed token collection.  `Iterator::collect` on the lexer is
modelled by running `next_token` repeatedly; since every step consumes at
least one character (`next_token_progress`), `s.length` steps always
suffice, which `tokenizeFuel_congr` makes precise. -/
def tokenizeFuel (stem : String → String) : ℕ → List Char → List String
  | 0, _ => []
  | fuel + 1, s =>
    match next_token stem s with
    | none => []
    | some (t, rest) => t :: tokenizeFuel stem fuel rest

/-- `Lexer::new(content).collect::<Vec<_>>()`: the full token sequence. -/
def tokenize (stem : String → String) (s : List Char) : List String :=
  tokenizeFuel stem s.length s

/-! ## Exact model of the `f32` values of this program

Every `f32` the program computes is a NaN, an infinity, or an exact real
number of the form `Σ c · log10 x` with `c, x` rational and `x > 0` (term
frequencies are rationals, i.e. `r · log10 10`, and IDF values are
`log10` of positive rationals; scores multiply a rational by an IDF and add).
`F32.fin L` represents such a formal combination; `denTerms` below gives it
its real value, and `signTerms` decides its sign exactly, via the
equivalence  `Σ cᵢ · log10 xᵢ ⋈ 0  ↔  Π xᵢ^(D·cᵢ) ⋈ 1`  (`D` a common
denominator of the `cᵢ`).  Rounding of `f32` arithmetic is not modelled:
values are exact reals, as in the specification's arithmetic.
-/
inductive F32 : Type where
  | nan : F32
  | inf : F32
  | ninf : F32
  | fin (terms : List (ℚ × ℚ)) : F32
deriving DecidableEq

/-- A common denominator for all coefficients of the combination. -/
def commonDen (L : List (ℚ × ℚ)) : ℕ := L.foldr (fun p d => Nat.lcm p.1.den d) 1

/-- `Π xᵢ ^ (cᵢ·D)` — an exact rational whose comparison with `1` decides the
sign of `Σ cᵢ · log10 xᵢ`. -/
def sigProd (L : List (ℚ × ℚ)) (D : ℕ) : ℚ :=
  (L.map (fun p => p.2 ^ (p.1 * (D : ℚ)).num)).prod

/-- Exact sign of the represented value `Σ cᵢ · log10 xᵢ`. -/
def signTerms (L : List (ℚ × ℚ)) : Ordering :=
  compare (sigProd L (commonDen L)) 1

/-- Negation of a combination (used to compare two finite values). -/
def negTerms (L : List (ℚ × ℚ)) : List (ℚ × ℚ) := L.map (fun p => (-p.1, p.2))

/-- Multiplication of a combination by a rational scalar. -/
def scaleTerms (r : ℚ) (L : List (ℚ × ℚ)) : List (ℚ × ℚ) :=
  L.map (fun p => (r * p.1, p.2))

/-- If the combination is a plain rational (all logarithm arguments are `10`,
so it reads `Σ cᵢ · log10 10 = Σ cᵢ`), return that rational. -/
def asScalar : List (ℚ × ℚ) → Option ℚ
  | [] => some 0
  | (c, x) :: L => if x = 10 then (asScalar L).map (fun r => c + r) else none

/-- IEEE-754 `f32` multiplication on the value forms of this program: NaN
propagates, signed infinities multiply by the sign of the other operand
(`0 · ∞ = NaN`), and a finite product scales a combination by a rational
scalar.  In the program one factor is always a term frequency, i.e. a
rational scalar, so the final catch-all (product of two non-scalar
combinations, not representable in this form) is never reached. -/
def mulF : F32 → F32 → F32
  | F32.nan, _ => F32.nan
  | _, F32.nan => F32.nan
  | F32.inf, F32.inf => F32.inf
  | F32.inf, F32.ninf => F32.ninf
  | F32.ninf, F32.inf => F32.ninf
  | F32.ninf, F32.ninf => F32.inf
  | F32.inf, F32.fin L =>
    match signTerms L with
    | Ordering.gt => F32.inf
    | Ordering.eq => F32.nan
    | Ordering.lt => F32.ninf
  | F32.fin L, F32.inf =>
    match signTerms L with
    | Ordering.gt => F32.inf
    | Ordering.eq => F32.nan
    | Ordering.lt => F32.ninf
  | F32.ninf, F32.fin L =>
    match signTerms L with
    | Ordering.gt => F32.ninf
    | Ordering.eq => F32.nan
    | Ordering.lt => F32.inf
  | F32.fin L, F32.ninf =>
    match signTerms L with
    | Ordering.gt => F32.ninf
    | Ordering.eq => F32.nan
    | Ordering.lt => F32.inf
  | F32.fin L₁, F32.fin L₂ =>
    match asScalar L₁ with
    | some r => F32.fin (scaleTerms r L₂)
    | none =>
      match asScalar L₂ with
      | some r => F32.fin (scaleTerms r L₁)
      | none => F32.nan

/-- IEEE-754 `f32` addition on the value forms of this program: NaN
propagates, `∞ + (-∞) = NaN`, an infinity absorbs finite values, and finite
combinations concatenate. -/
def addF : F32 → F32 → F32
  | F32.nan, _ => F32.nan
  | _, F32.nan => F32.nan
  | F32.inf, F32.ninf => F32.nan
  | F32.ninf, F32.inf => F32.nan
  | F32.inf, _ => F32.inf
  | _, F32.inf => F32.inf
  | F32.ninf, _ => F32.ninf
  | _, F32.ninf => F32.ninf
  | F32.fin L₁, F32.fin L₂ => F32.fin (L₁ ++ L₂)

/-- IEEE-754 `partial_cmp` on `f32`: `none` iff either operand is NaN,
otherwise the exact order of the represented values. -/
def cmpF : F32 → F32 → Option Ordering
  | F32.nan, _ => none
  | _, F32.nan => none
  | F32.inf, F32.inf => some Ordering.eq
  | F32.inf, _ => some Ordering.gt
  | _, F32.inf => some Ordering.lt
  | F32.ninf, F32.ninf => some Ordering.eq
  | F32.ninf, _ => some Ordering.lt
  | _, F32.ninf => some Ordering.gt
  | F32.fin L₁, F32.fin L₂ => some (signTerms (L₁ ++ negTerms L₂))

/-- `f32::is_nan`. -/
def isNanF : F32 → Bool
  | F32.nan => true
  | _ => false

/-- IEEE-754 `x == 0.0` (false for NaN and the infinities). -/
def isZeroF : F32 → Bool
  | F32.fin L => signTerms L = Ordering.eq
  | _ => false

/-- All logarithm arguments of a combination are positive (an invariant of
every `F32` value the program builds). -/
def posTerms (L : List (ℚ × ℚ)) : Prop := ∀ p ∈ L, (0 : ℚ) < p.2

/-- Well-formedness of an `F32` value. -/
def wfF : F32 → Prop
  | F32.fin L => posTerms L
  | _ => True

/-- The real value represented by a finite combination. -/
noncomputable def denTerms (L : List (ℚ × ℚ)) : ℝ :=
  (L.map (fun p => (p.1 : ℝ) * Real.logb 10 (p.2 : ℝ))).sum

/-- The extended-real value of a non-NaN `F32` (NaN is arbitrarily sent
to `0`; every use excludes NaN first). -/
noncomputable def keyF : F32 → EReal
  | F32.nan => (0 : EReal)
  | F32.inf => ⊤
  | F32.ninf => ⊥
  | F32.fin L => ((denTerms L : ℝ) : EReal)

/-! ## The data model (`src/model.rs`) -/
/-- `struct Doc { tf: TermFreq, count: usize, last_modified: SystemTime }`:
the per-document record (term counts, cached total term count, timestamp). -/
structure Doc : Type where
  tf : List (String × ℕ)
  count : ℕ
  last_modified : ℕ
deriving DecidableEq

/-- `struct Model { docs: Docs, df: DocFreq }`: the document index and the
corpus-wide document-frequency map.  `Model::default()` is `⟨[], []⟩`. -/
structure Model : Type where
  docs : List (String × Doc)
  df : List (String × ℕ)
deriving DecidableEq

/-- `compute_tf`: `a / b` where `b = doc.count as f32` and
`a = doc.tf.get(term).cloned().unwrap_or(0) as f32`.  The division is IEEE:
`0/0 = NaN`, `a/0 = +∞` for `a > 0`, otherwise the exact rational `a / b`
(represented as the combination `[(a/b, 10)]`). -/
def compute_tf (term : String) (doc : Doc) : F32 :=
  let b : ℚ := (doc.count : ℚ)
  let a : ℚ := (((aget doc.tf term).getD 0 : ℕ) : ℚ)
  if b = 0 then (if a = 0 then F32.nan else F32.inf)
  else F32.fin [(a / b, 10)]

/-- `compute_idf`: `(n / m).log10()` where `n = n_docs as f32` and
`m = df.get(term).cloned().unwrap_or(1) as f32`.  IEEE composition of `/`
and `log10`: `0/0 = NaN` (log10 propagates NaN), `n/0 = +∞` for `n > 0`
(`log10(+∞) = +∞`), `log10(0) = -∞`, otherwise the exact `log10 (n/m)`
(the combination `[(1, n/m)]`). -/
def compute_idf (term : String) (n_docs : ℕ) (df : List (String × ℕ)) : F32 :=
  let n : ℚ := (n_docs : ℚ)
  let m : ℚ := (((aget df term).getD 1 : ℕ) : ℚ)
  if m = 0 then (if n = 0 then F32.nan else F32.inf)
  else if n = 0 then F32.ninf
  else F32.fin [(1, n / m)]

/-- One step of the `Model::remove_document` loop body:
`if let Some(f) = self.df.get_mut(t) { *f -= 1 }`.  When the counter is
already `0`, Rust's `*f -= 1` underflows: debug builds panic there (the
overflow-check assertion; see `removeUnderflow`), so `f - 1` below — `ℕ`
truncated subtraction — agrees with the machine on every non-panicking
execution. -/
def dfDecr (df : List (String × ℕ)) (t : String) : List (String × ℕ) :=
  match aget df t with
  | some f => aset df t (f - 1)
  | none => df

/-- `Model::remove_document`: if the document is present, remove its record
and decrement the document-frequency counter of every key of its `tf` map;
no-op otherwise. -/
def remove_document (m : Model) (p : String) : Model :=
  match aget m.docs p with
  | none => m
  | some doc =>
    { docs := aremove m.docs p
      df := (keysList doc.tf).foldl dfDecr m.df }

/-- True exactly when `remove_document m p` executes `*f -= 1` on a
document-frequency counter that is already `0` — the arithmetic underflow
on which debug builds panic (Rust's overflow check acting as the
invariant assertion). -/
def removeUnderflow (m : Model) (p : String) : Bool :=
  match aget m.docs p with
  | none => false
  | some doc => (keysList doc.tf).any (fun t => aget m.df t == some 0)

/-- `Model::requires_reindexing`: `true` if the document is absent, else
whether the stored timestamp is strictly earlier than the candidate.
The Rust method takes `&mut self` but only reads; it is a pure function. -/
def requires_reindexing (m : Model) (p : String) (last_modified : ℕ) : Bool :=
  match aget m.docs p with
  | some doc => decide (doc.last_modified < last_modified)
  | none => true

/-- Loop body of the `tf` construction in `Model::add_document`:
`if let Some(f) = tf.get_mut(&t) { *f += 1 } else { tf.insert(t, 1) }`. -/
def tfIncr (tf : List (String × ℕ)) (t : String) : List (String × ℕ) :=
  match aget tf t with
  | some f => aset tf t (f + 1)
  | none => aset tf t 1

/-- Loop body of the `df` update in `Model::add_document`:
`if let Some(f) = self.df.get_mut(t) { *f += 1 } else { self.df.insert(t.to_string(), 1) }`. -/
def dfIncr (df : List (String × ℕ)) (t : String) : List (String × ℕ) :=
  match aget df t with
  | some f => aset df t (f + 1)
  | none => aset df t 1

/-- `Model::add_document`: pre-clean via `remove_document`, tokenize the
content, build the fresh `tf` map and token count in one pass, bump the
document frequency once per distinct term of the new record, and insert the
new `Doc`. -/
def add_document (stem : String → String) (m : Model) (p : String)
    (last_modified : ℕ) (content : List Char) : Model :=
  let m₁ := remove_document m p
  let built := (tokenize stem content).foldl
    (fun acc t => (tfIncr acc.1 t, acc.2 + 1)) (([] : List (String × ℕ)), 0)
  let df' := (keysList built.1).foldl dfIncr m₁.df
  { docs := aset m₁.docs p ⟨built.1, built.2, last_modified⟩
    df := df' }

/-- The score accumulation of `Model::search_query` for one document: starting
from `0f32`, for each query token, re-stem it and add
`compute_tf(stemmed, doc) * compute_idf(stemmed, docs.len(), df)`. -/
def docRank (stem : String → String) (tokens : List String) (n_docs : ℕ)
    (df : List (String × ℕ)) (doc : Doc) : F32 :=
  tokens.foldl
    (fun rank token =>
      addF rank (mulF (compute_tf (stem token) doc)
        (compute_idf (stem token) n_docs df)))
    (F32.fin [])

/-- The comparator passed to `sort_by`:
`|(_, s1), (_, s2)| s1.partial_cmp(s2).unwrap()` — ascending by score.  The
`unwrap` panics only when an operand is NaN, which the preceding filter has
excluded; `getD Ordering.eq` is the (unreachable) total extension. -/
def sortLe (a b : String × F32) : Bool :=
  (cmpF a.2 b.2).getD Ordering.eq ≠ Ordering.gt

/-- Stable insertion into a sorted list, ascending with respect to `le`. -/
def insertSorted {α : Type} (le : α → α → Bool) (x : α) : List α → List α
  | [] => [x]
  | y :: l => if le x y then x :: y :: l else y :: insertSorted le x l

/-- Insertion sort: model of `Vec::sort_by` (same multiset, ascending order;
the claims do not depend on how ties are ordered). -/
def isort {α : Type} (le : α → α → Bool) : List α → List α
  | [] => []
  | x :: l => insertSorted le x (isort le l)

/-- `Model::search_query`: tokenize the query, score every document, keep
only scores that are neither NaN nor `0.0`, sort ascending by score and
reverse.  The source wraps the vector in `Ok(...)` unconditionally
(`Result<_, ()>` with no error path); we return the list itself. -/
def search_query (stem : String → String) (m : Model) (query : List Char) :
    List (String × F32) :=
  let tokens := tokenize stem query
  let scored := m.docs.map
    (fun pd => (pd.1, docRank stem tokens m.docs.length m.df pd.2))
  let kept := scored.filter (fun pr => !isNanF pr.2 && !isZeroF pr.2)
  (isort sortLe kept).reverse

/-- The specification's per-document score: the sum over the query's token
list (with multiplicity) of `tf(token) · idf(token)`, with no re-stemming.
Used to state claim C7 against `docRank`. -/
def scoreSum (tokens : List String) (doc : Doc) (n_docs : ℕ)
    (df : List (String × ℕ)) : F32 :=
  (tokens.map (fun t => mulF (compute_tf t doc) (compute_idf t n_docs df))).foldl
    addF (F32.fin [])

/-- Modelled from the spec: the snowball English stemmer (`src/snowball`) is
an external collaborator, absent from the verified sources.  The
specification describes it as a pure, deterministic, idempotent
`stem(word) -> string` applied by the tokenizer to lower-cased alphabetic
runs, while numeric runs are "emitted verbatim (no numeric value parsing,
leading zeros preserved)" and fallback tokens are single characters emitted
verbatim, with stored terms and query terms comparable after the same
normalization.  `StemSpec` collects exactly those assumptions: idempotence,
and that re-stemming a purely numeric token or a single non-alphanumeric
character leaves it unchanged. -/
structure StemSpec (stem : String → String) : Prop where
  idem : ∀ w : String, stem (stem w) = stem w
  digits : ∀ cs : List Char, cs ≠ [] → (∀ c ∈ cs, c.isDigit = true) →
    stem (String.mk cs) = String.mk cs
  fallback : ∀ c : Char, c.isAlpha = false → c.isDigit = false →
    stem (String.mk [c]) = String.mk [c]

/-- A single index operation, for stating invariants over arbitrary
interleavings of `add_document` and `remove_document`. -/
inductive Op : Type where
  | add (p : String) (last_modified : ℕ) (content : List Char) : Op
  | remove (p : String) : Op

/-- Apply one operation to the model. -/
def applyOp (stem : String → String) (m : Model) : Op → Model
  | Op.add p lm content => add_document stem m p lm content
  | Op.remove p => remove_document m p

/-- Run a sequence of operations starting from `Model::default()`. -/
def applyOps (stem : String → String) (ops : List Op) : Model :=
  ops.foldl (applyOp stem) ⟨[], []⟩

/-! ## The index invariant (claims C3, C4, C5) -/
/-- The number of stored documents whose record contains the term
(`|{d : term ∈ d.term_counts}|`). -/
def dfCount (docs : List (String × Doc)) (t : String) : ℕ :=
  docs.countP (fun pd => (aget pd.2.tf t).isSome)

/-- The reachable-state invariant of the index: document keys are pairwise
distinct, every stored record's term-count keys are pairwise distinct, and
every document-frequency entry (an absent entry counting as `0`) equals the
number of stored documents containing the term. -/
def IndexInv (m : Model) : Prop :=
  nodupKeys m.docs ∧ (∀ pd ∈ m.docs, nodupKeys pd.2.tf) ∧
  (∀ t : String, (aget m.df t).getD 0 = dfCount m.docs t)

/-! ## Token shapes and stemming (claims C7, C9) -/
/-- The three possible shapes of a token emitted by the lexer: a stemmed
(lower-cased alphabetic) word, a nonempty numeric run, or a single
non-alphanumeric character. -/
def TokenShape (stem : String → String) (t : String) : Prop :=
  (∃ w : String, t = stem w) ∨
  (∃ cs : List Char, cs ≠ [] ∧ (∀ c ∈ cs, c.isDigit = true) ∧ t = String.mk cs) ∨
  (∃ c : Char, c.isAlpha = false ∧ c.isDigit = false ∧ t = String.mk [c])

/-- `x ≥ y` in the IEEE `f32` order (false when either operand is NaN);
the order in which `search_query` returns its pairs. -/
def fgeB (x y : F32) : Bool :=
  match cmpF x y with
  | some Ordering.gt => true
  | some Ordering.eq => true
  | _ => false

instance nodupKeysDecidable {α : Type} (l : List (String × α)) :
    Decidable (nodupKeys l) :=
  inferInstanceAs (Decidable ((keysList l).Nodup))

/-- A small concrete index used by the witnesses: two one-word documents
(`d1` = "cat", `d2` = "dog"), indexed with the identity stemmer. -/
def demoModel : Model :=
  add_document id (add_document id ⟨[], []⟩ "d1" 0 ("cat".data)) "d2" 0 ("dog".data)

/-! ## Theorems -/

theorem aget_aset_self {α : Type} (l : List (String × α)) (k : String) (v : α) :
    aget (aset l k v) k = some v := by
  induction l with
  | nil => simp [aget, aset]
  | cons p rest ih =>
    obtain ⟨k', v'⟩ := p
    by_cases h : k' = k
    · simp [aget, aset, h]
    · simp [aget, aset, h, ih]

theorem aget_aset_ne {α : Type} (l : List (String × α)) (k k' : String) (v : α)
    (h : k ≠ k') : aget (aset l k v) k' = aget l k' := by
  induction l with
  | nil => simp [aget, aset, h]
  | cons p rest ih =>
    obtain ⟨k₀, v₀⟩ := p
    by_cases h₀ : k₀ = k
    · subst h₀
      simp [aget, aset, h]
    · simp [aget, aset, h₀, ih]

theorem aget_aremove_ne {α : Type} (l : List (String × α)) (k k' : String)
    (h : k ≠ k') : aget (aremove l k) k' = aget l k' := by
  induction l with
  | nil => simp [aremove]
  | cons p rest ih =>
    obtain ⟨k₀, v₀⟩ := p
    by_cases h₀ : k₀ = k
    · subst h₀
      simp [aget, aremove, h]
    · simp [aget, aremove, h₀, ih]

theorem aremove_of_aget_none {α : Type} (l : List (String × α)) (k : String)
    (h : aget l k = none) : aremove l k = l := by
  induction l with
  | nil => simp [aremove]
  | cons p rest ih =>
    obtain ⟨k₀, v₀⟩ := p
    by_cases h₀ : k₀ = k
    · simp [aget, h₀] at h
    · simp only [aget, if_neg h₀] at h
      simp [aremove, h₀, ih h]

theorem aget_eq_none_iff {α : Type} (l : List (String × α)) (k : String) :
    aget l k = none ↔ k ∉ keysList l := by
  induction l with
  | nil => simp [aget, keysList]
  | cons p rest ih =>
    obtain ⟨k₀, v₀⟩ := p
    by_cases h₀ : k₀ = k
    · simp [aget, keysList, h₀]
    · simp only [aget, if_neg h₀, keysList, List.map_cons, List.mem_cons]
      rw [ih]
      simp only [keysList]
      constructor
      · intro hn hmem
        rcases hmem with h | h
        · exact h₀ h.symm
        · exact hn h
      · intro hn hmem
        exact hn (Or.inr hmem)

theorem aget_isSome_iff_mem_keys {α : Type} (l : List (String × α)) (k : String) :
    (aget l k).isSome = true ↔ k ∈ keysList l := by
  rcases h : aget l k with _ | v
  · simp only [Option.isSome_none, Bool.false_eq_true, false_iff]
    exact (aget_eq_none_iff l k).mp h
  · simp only [Option.isSome_some, true_iff]
    by_contra hmem
    rw [← aget_eq_none_iff] at hmem
    rw [h] at hmem
    exact Option.noConfusion hmem

theorem mem_keys_aset {α : Type} (l : List (String × α)) (k k' : String) (v : α)
    (h : k' ∈ keysList (aset l k v)) : k' ∈ keysList l ∨ k' = k := by
  induction l with
  | nil => simpa [aset, keysList] using h
  | cons p rest ih =>
    obtain ⟨k₀, v₀⟩ := p
    by_cases h₀ : k₀ = k
    · subst h₀
      simp [aset, keysList] at h ⊢
      tauto
    · simp only [aset, if_neg h₀, keysList, List.map_cons, List.mem_cons] at h ⊢
      rcases h with h | h
      · exact Or.inl (Or.inl h)
      · rcases ih h with h' | h'
        · exact Or.inl (Or.inr h')
        · exact Or.inr h'

theorem mem_keys_aremove {α : Type} (l : List (String × α)) (k k' : String)
    (h : k' ∈ keysList (aremove l k)) : k' ∈ keysList l := by
  induction l with
  | nil => simpa [aremove] using h
  | cons p rest ih =>
    obtain ⟨k₀, v₀⟩ := p
    by_cases h₀ : k₀ = k
    · subst h₀
      simp only [aremove, if_pos rfl] at h
      simp only [keysList, List.map_cons, List.mem_cons]
      exact Or.inr h
    · simp only [aremove, if_neg h₀, keysList, List.map_cons, List.mem_cons] at h ⊢
      rcases h with h | h
      · exact Or.inl h
      · exact Or.inr (ih h)

theorem aget_aremove_self_of_nodup {α : Type} (l : List (String × α)) (k : String)
    (h : nodupKeys l) : aget (aremove l k) k = none := by
  induction l with
  | nil => simp [aget, aremove]
  | cons p rest ih =>
    obtain ⟨k₀, v₀⟩ := p
    simp only [nodupKeys, keysList, List.map_cons, List.nodup_cons] at h
    by_cases h₀ : k₀ = k
    · subst h₀
      simp only [aremove, if_pos rfl]
      exact (aget_eq_none_iff rest k₀).mpr h.1
    · simp only [aremove, if_neg h₀, aget, if_neg h₀]
      exact ih h.2

theorem aset_of_aget_eq {α : Type} (l : List (String × α)) (k : String) (v : α)
    (h : aget l k = some v) : aset l k v = l := by
  induction l with
  | nil => simp [aget] at h
  | cons p rest ih =>
    obtain ⟨k₀, v₀⟩ := p
    by_cases h₀ : k₀ = k
    · subst h₀
      have hv : v₀ = v := by simpa [aget] using h
      subst hv
      simp [aset]
    · simp only [aget, if_neg h₀] at h
      simp [aset, h₀, ih h]

theorem nodupKeys_aset {α : Type} (l : List (String × α)) (k : String) (v : α)
    (h : nodupKeys l) : nodupKeys (aset l k v) := by
  induction l with
  | nil => simp [nodupKeys, keysList, aset]
  | cons p rest ih =>
    obtain ⟨k₀, v₀⟩ := p
    simp only [nodupKeys, keysList, List.map_cons, List.nodup_cons] at h
    by_cases h₀ : k₀ = k
    · subst h₀
      simpa [aset, nodupKeys, keysList] using h
    · have hrest := ih h.2
      simp only [aset, if_neg h₀, nodupKeys, keysList, List.map_cons,
        List.nodup_cons]
      refine ⟨?_, hrest⟩
      intro hmem
      rcases mem_keys_aset rest k k₀ v hmem with h' | h'
      · exact h.1 h'
      · exact h₀ h'

theorem nodupKeys_aremove {α : Type} (l : List (String × α)) (k : String)
    (h : nodupKeys l) : nodupKeys (aremove l k) := by
  induction l with
  | nil => simp [nodupKeys, keysList, aremove]
  | cons p rest ih =>
    obtain ⟨k₀, v₀⟩ := p
    simp only [nodupKeys, keysList, List.map_cons, List.nodup_cons] at h
    by_cases h₀ : k₀ = k
    · subst h₀
      simp only [aremove, if_pos rfl, nodupKeys, keysList]
      exact h.2
    · simp only [aremove, if_neg h₀, nodupKeys, keysList, List.map_cons,
        List.nodup_cons]
      exact ⟨fun hmem => h.1 (mem_keys_aremove rest k k₀ hmem), ih h.2⟩

theorem length_dropWhile_le (p : Char → Bool) (l : List Char) :
    (l.dropWhile p).length ≤ l.length := by
  induction l with
  | nil => simp
  | cons c cs ih =>
    by_cases h : p c
    · rw [List.dropWhile_cons_of_pos h]
      exact Nat.le_succ_of_le ih
    · rw [List.dropWhile_cons_of_neg (by simpa using h)]

theorem length_trim_left_le (s : List Char) : (trim_left s).length ≤ s.length :=
  length_dropWhile_le Char.isWhitespace s

/-- Every emitted token consumes at least one character of the remaining
input: the length of the remaining content strictly decreases. -/
theorem next_token_progress (stem : String → String) (s : List Char)
    (t : String) (rest : List Char) (h : next_token stem s = some (t, rest)) :
    rest.length < s.length := by
  unfold next_token at h
  rcases htrim : trim_left s with _ | ⟨c, cs⟩
  · rw [htrim] at h
    exact Option.noConfusion h
  · rw [htrim] at h
    have hlen : (c :: cs).length ≤ s.length := by
      rw [← htrim]
      exact length_trim_left_le s
    by_cases ha : c.isAlpha
    · simp only [if_pos ha, Option.some.injEq, Prod.mk.injEq] at h
      have : rest = cs.dropWhile Char.isAlpha := by
        rw [← h.2, List.dropWhile_cons_of_pos ha]
      calc rest.length ≤ cs.length := this ▸ length_dropWhile_le _ cs
        _ < (c :: cs).length := by simp
        _ ≤ s.length := hlen
    · by_cases hd : c.isDigit
      · simp only [if_neg ha, if_pos hd, Option.some.injEq, Prod.mk.injEq] at h
        have : rest = cs.dropWhile Char.isDigit := by
          rw [← h.2, List.dropWhile_cons_of_pos hd]
        calc rest.length ≤ cs.length := this ▸ length_dropWhile_le _ cs
          _ < (c :: cs).length := by simp
          _ ≤ s.length := hlen
      · simp only [if_neg ha, if_neg hd, Option.some.injEq, Prod.mk.injEq] at h
        calc rest.length = cs.length := by rw [← h.2]
          _ < (c :: cs).length := by simp
          _ ≤ s.length := hlen

/-- The token stream ends exactly when the input left after
whitespace-trimming is empty. -/
theorem next_token_none_iff (stem : String → String) (s : List Char) :
    next_token stem s = none ↔ trim_left s = [] := by
  unfold next_token
  rcases htrim : trim_left s with _ | ⟨c, cs⟩
  · simp
  · by_cases ha : c.isAlpha
    · simp [ha]
    · by_cases hd : c.isDigit
      · simp [ha, hd]
      · simp [ha, hd]

theorem next_token_nil (stem : String → String) : next_token stem [] = none := rfl

/-- Any fuel of at least `s.length` computes the same token sequence: the
iteration always reaches the terminal state before the fuel runs out. -/
theorem tokenizeFuel_congr (stem : String → String) :
    ∀ fuel fuel' : ℕ, ∀ s : List Char, s.length ≤ fuel → s.length ≤ fuel' →
      tokenizeFuel stem fuel s = tokenizeFuel stem fuel' s := by
  intro fuel
  induction fuel with
  | zero =>
    intro fuel' s hs hs'
    have : s = [] := List.length_eq_zero.mp (Nat.le_zero.mp hs)
    subst this
    cases fuel' with
    | zero => rfl
    | succ n => simp [tokenizeFuel, next_token_nil]
  | succ n ih =>
    intro fuel' s hs hs'
    cases fuel' with
    | zero =>
      have : s = [] := List.length_eq_zero.mp (Nat.le_zero.mp hs')
      subst this
      simp [tokenizeFuel, next_token_nil]
    | succ n' =>
      rcases h : next_token stem s with _ | ⟨t, rest⟩
      · simp [tokenizeFuel, h]
      · have hlt := next_token_progress stem s t rest h
        have h₁ : rest.length ≤ n := Nat.lt_succ_iff.mp (Nat.lt_of_lt_of_le hlt hs)
        have h₂ : rest.length ≤ n' := Nat.lt_succ_iff.mp (Nat.lt_of_lt_of_le hlt hs')
        simp only [tokenizeFuel, h]
        rw [ih n' rest h₁ h₂]

/-- The defining equation of the token stream: one `next_token` step, then
recurse on the remaining content. -/
theorem tokenize_eq (stem : String → String) (s : List Char) :
    tokenize stem s =
      match next_token stem s with
      | none => []
      | some (t, rest) => t :: tokenize stem rest := by
  unfold tokenize
  rcases h : next_token stem s with _ | ⟨t, rest⟩
  · rcases hs : s.length with _ | n
    · rfl
    · simp [tokenizeFuel, h]
  · have hlt := next_token_progress stem s t rest h
    rcases hs : s.length with _ | n
    · omega
    · rw [hs] at hlt
      simp only [tokenizeFuel, h]
      rw [tokenizeFuel_congr stem n rest.length rest (by omega) (le_refl _)]

theorem commonDen_pos (L : List (ℚ × ℚ)) : 0 < commonDen L := by
  induction L with
  | nil => exact Nat.one_pos
  | cons p L ih =>
    simp only [commonDen, List.foldr_cons] at ih ⊢
    exact Nat.pos_of_ne_zero (Nat.lcm_ne_zero p.1.den_pos.ne' ih.ne')

theorem den_dvd_commonDen (L : List (ℚ × ℚ)) :
    ∀ p ∈ L, p.1.den ∣ commonDen L := by
  induction L with
  | nil => intro p hp; exact absurd hp (List.not_mem_nil p)
  | cons q L ih =>
    intro p hp
    rcases List.mem_cons.mp hp with h | h
    · subst h
      exact Nat.dvd_lcm_left _ _
    · exact (ih p h).trans (Nat.dvd_lcm_right _ _)

theorem exp_cast (q : ℚ) (D : ℕ) (h : q.den ∣ D) :
    (((q * (D : ℚ)).num : ℤ) : ℝ) = (q : ℝ) * (D : ℝ) := by
  obtain ⟨k, hk⟩ := h
  subst hk
  have e : q * ((q.den * k : ℕ) : ℚ) = ((q.num * k : ℤ) : ℚ) := by
    push_cast
    calc q * ((q.den : ℚ) * (k : ℚ)) = (q * (q.den : ℚ)) * (k : ℚ) := by ring
      _ = (q.num : ℚ) * (k : ℚ) := by rw [Rat.mul_den_eq_num]
  rw [e, Rat.num_intCast]
  have e2 : ((q * ((q.den * k : ℕ) : ℚ) : ℚ) : ℝ) = (q : ℝ) * ((q.den * k : ℕ) : ℝ) := by
    push_cast
    ring
  rw [← e2, e]
  push_cast
  ring

theorem sigProd_pos (L : List (ℚ × ℚ)) (D : ℕ) (h : posTerms L) :
    0 < sigProd L D := by
  unfold sigProd
  apply List.prod_pos
  intro x hx
  rcases List.mem_map.mp hx with ⟨p, hp, rfl⟩
  exact zpow_pos (h p hp) _

theorem logb10_zpow (x : ℝ) (n : ℤ) :
    Real.logb 10 (x ^ n) = (n : ℝ) * Real.logb 10 x := by
  simp only [Real.logb, Real.log_zpow]
  ring

theorem denTerms_nil : denTerms [] = 0 := by simp [denTerms]

theorem denTerms_cons (p : ℚ × ℚ) (L : List (ℚ × ℚ)) :
    denTerms (p :: L) = (p.1 : ℝ) * Real.logb 10 (p.2 : ℝ) + denTerms L := by
  simp [denTerms]

theorem logb_sigProd (L : List (ℚ × ℚ)) (D : ℕ) (hpos : posTerms L)
    (hdvd : ∀ p ∈ L, p.1.den ∣ D) :
    Real.logb 10 ((sigProd L D : ℚ) : ℝ) = (D : ℝ) * denTerms L := by
  induction L with
  | nil => simp [sigProd, denTerms]
  | cons p L ih =>
    have hposL : posTerms L := fun q hq => hpos q (List.mem_cons_of_mem p hq)
    have hdvdL : ∀ q ∈ L, q.1.den ∣ D := fun q hq => hdvd q (List.mem_cons_of_mem p hq)
    have hp2 : (0 : ℝ) < (p.2 : ℝ) := by
      exact_mod_cast hpos p (List.mem_cons_self p L)
    have hhead : (0 : ℝ) < (p.2 : ℝ) ^ (p.1 * (D : ℚ)).num := zpow_pos hp2 _
    have hrest : (0 : ℝ) < ((sigProd L D : ℚ) : ℝ) := by
      exact_mod_cast sigProd_pos L D hposL
    have hsplit : ((sigProd (p :: L) D : ℚ) : ℝ) =
        ((p.2 : ℝ) ^ (p.1 * (D : ℚ)).num) * ((sigProd L D : ℚ) : ℝ) := by
      simp only [sigProd, List.map_cons, List.prod_cons]
      push_cast
      ring
    rw [hsplit, Real.logb_mul hhead.ne' hrest.ne', logb10_zpow, ih hposL hdvdL,
      exp_cast p.1 D (hdvd p (List.mem_cons_self p L)), denTerms_cons]
    ring

theorem signTerms_lt_iff (L : List (ℚ × ℚ)) (h : posTerms L) :
    signTerms L = Ordering.lt ↔ denTerms L < 0 := by
  have hQ : 0 < sigProd L (commonDen L) := sigProd_pos L _ h
  have hQR : (0 : ℝ) < ((sigProd L (commonDen L) : ℚ) : ℝ) := by exact_mod_cast hQ
  have hD : (0 : ℝ) < ((commonDen L : ℕ) : ℝ) := by exact_mod_cast commonDen_pos L
  have key := logb_sigProd L (commonDen L) h (den_dvd_commonDen L)
  have h10 : (1 : ℝ) < 10 := by norm_num
  unfold signTerms
  rw [compare_lt_iff_lt]
  constructor
  · intro hlt
    have hc : ((sigProd L (commonDen L) : ℚ) : ℝ) < 1 := by exact_mod_cast hlt
    have hlog := (Real.logb_neg_iff h10 hQR).mpr hc
    rw [key] at hlog
    nlinarith
  · intro hden
    have hlog : ((commonDen L : ℕ) : ℝ) * denTerms L < 0 := by nlinarith
    rw [← key] at hlog
    have hc := (Real.logb_neg_iff h10 hQR).mp hlog
    exact_mod_cast hc

theorem signTerms_gt_iff (L : List (ℚ × ℚ)) (h : posTerms L) :
    signTerms L = Ordering.gt ↔ 0 < denTerms L := by
  have hQ : 0 < sigProd L (commonDen L) := sigProd_pos L _ h
  have hQR : (0 : ℝ) < ((sigProd L (commonDen L) : ℚ) : ℝ) := by exact_mod_cast hQ
  have hD : (0 : ℝ) < ((commonDen L : ℕ) : ℝ) := by exact_mod_cast commonDen_pos L
  have key := logb_sigProd L (commonDen L) h (den_dvd_commonDen L)
  have h10 : (1 : ℝ) < 10 := by norm_num
  unfold signTerms
  rw [compare_gt_iff_gt]
  constructor
  · intro hgt
    have hc : (1 : ℝ) < ((sigProd L (commonDen L) : ℚ) : ℝ) := by exact_mod_cast hgt
    have hlog := (Real.logb_pos_iff h10 hQR).mpr hc
    rw [key] at hlog
    nlinarith
  · intro hden
    have hlog : 0 < ((commonDen L : ℕ) : ℝ) * denTerms L := by nlinarith
    rw [← key] at hlog
    have hc := (Real.logb_pos_iff h10 hQR).mp hlog
    exact_mod_cast hc

theorem signTerms_eq_iff (L : List (ℚ × ℚ)) (h : posTerms L) :
    signTerms L = Ordering.eq ↔ denTerms L = 0 := by
  constructor
  · intro he
    by_contra hne
    rcases lt_or_gt_of_ne hne with h' | h'
    · have hc := (signTerms_lt_iff L h).mpr h'
      rw [he] at hc
      exact Ordering.noConfusion hc
    · have hc := (signTerms_gt_iff L h).mpr h'
      rw [he] at hc
      exact Ordering.noConfusion hc
  · intro he
    rcases hcase : signTerms L with _ | _ | _
    · have hc := (signTerms_lt_iff L h).mp hcase
      exact absurd he (by linarith)
    · rfl
    · have hc := (signTerms_gt_iff L h).mp hcase
      exact absurd he (by linarith)

theorem posTerms_append (L₁ L₂ : List (ℚ × ℚ)) (h₁ : posTerms L₁)
    (h₂ : posTerms L₂) : posTerms (L₁ ++ L₂) := by
  intro p hp
  rcases List.mem_append.mp hp with h | h
  · exact h₁ p h
  · exact h₂ p h

theorem posTerms_negTerms (L : List (ℚ × ℚ)) (h : posTerms L) :
    posTerms (negTerms L) := by
  intro p hp
  rcases List.mem_map.mp hp with ⟨q, hq, rfl⟩
  exact h q hq

theorem posTerms_scaleTerms (r : ℚ) (L : List (ℚ × ℚ)) (h : posTerms L) :
    posTerms (scaleTerms r L) := by
  intro p hp
  rcases List.mem_map.mp hp with ⟨q, hq, rfl⟩
  exact h q hq

theorem denTerms_append (L₁ L₂ : List (ℚ × ℚ)) :
    denTerms (L₁ ++ L₂) = denTerms L₁ + denTerms L₂ := by
  simp [denTerms]

theorem denTerms_negTerms (L : List (ℚ × ℚ)) :
    denTerms (negTerms L) = -denTerms L := by
  induction L with
  | nil => simp [denTerms, negTerms]
  | cons p L ih =>
    simp only [negTerms, List.map_cons, denTerms_cons] at ih ⊢
    push_cast
    rw [ih]
    ring

theorem denTerms_scaleTerms (r : ℚ) (L : List (ℚ × ℚ)) :
    denTerms (scaleTerms r L) = (r : ℝ) * denTerms L := by
  induction L with
  | nil => simp [denTerms, scaleTerms]
  | cons p L ih =>
    simp only [scaleTerms, List.map_cons, denTerms_cons] at ih ⊢
    push_cast
    rw [ih]
    ring

theorem cmpF_eq_lt_iff (x y : F32) (hx : wfF x) (hy : wfF y)
    (hnx : isNanF x = false) (hny : isNanF y = false) :
    cmpF x y = some Ordering.lt ↔ keyF x < keyF y := by
  cases x with
  | nan => exact absurd hnx (by simp [isNanF])
  | inf =>
    cases y with
    | nan => exact absurd hny (by simp [isNanF])
    | inf => simp [cmpF, keyF]
    | ninf => simp [cmpF, keyF]
    | fin L => simp [cmpF, keyF]
  | ninf =>
    cases y with
    | nan => exact absurd hny (by simp [isNanF])
    | inf => simp [cmpF, keyF, bot_lt_top]
    | ninf => simp [cmpF, keyF]
    | fin L => simp [cmpF, keyF, EReal.bot_lt_coe]
  | fin L₁ =>
    cases y with
    | nan => exact absurd hny (by simp [isNanF])
    | inf => simp [cmpF, keyF, EReal.coe_lt_top]
    | ninf => simp [cmpF, keyF]
    | fin L₂ =>
      have hpos : posTerms (L₁ ++ negTerms L₂) :=
        posTerms_append _ _ hx (posTerms_negTerms _ hy)
      simp only [cmpF, Option.some.injEq, keyF, EReal.coe_lt_coe_iff]
      rw [signTerms_lt_iff _ hpos, denTerms_append, denTerms_negTerms]
      constructor
      · intro h; linarith
      · intro h; linarith

theorem cmpF_eq_gt_iff (x y : F32) (hx : wfF x) (hy : wfF y)
    (hnx : isNanF x = false) (hny : isNanF y = false) :
    cmpF x y = some Ordering.gt ↔ keyF y < keyF x := by
  cases x with
  | nan => exact absurd hnx (by simp [isNanF])
  | inf =>
    cases y with
    | nan => exact absurd hny (by simp [isNanF])
    | inf => simp [cmpF, keyF]
    | ninf => simp [cmpF, keyF, bot_lt_top]
    | fin L => simp [cmpF, keyF, EReal.coe_lt_top]
  | ninf =>
    cases y with
    | nan => exact absurd hny (by simp [isNanF])
    | inf => simp [cmpF, keyF]
    | ninf => simp [cmpF, keyF]
    | fin L => simp [cmpF, keyF]
  | fin L₁ =>
    cases y with
    | nan => exact absurd hny (by simp [isNanF])
    | inf => simp [cmpF, keyF]
    | ninf => simp [cmpF, keyF, EReal.bot_lt_coe]
    | fin L₂ =>
      have hpos : posTerms (L₁ ++ negTerms L₂) :=
        posTerms_append _ _ hx (posTerms_negTerms _ hy)
      simp only [cmpF, Option.some.injEq, keyF, EReal.coe_lt_coe_iff]
      rw [signTerms_gt_iff _ hpos, denTerms_append, denTerms_negTerms]
      constructor
      · intro h; linarith
      · intro h; linarith

theorem cmpF_eq_eq_iff (x y : F32) (hx : wfF x) (hy : wfF y)
    (hnx : isNanF x = false) (hny : isNanF y = false) :
    cmpF x y = some Ordering.eq ↔ keyF x = keyF y := by
  cases x with
  | nan => exact absurd hnx (by simp [isNanF])
  | inf =>
    cases y with
    | nan => exact absurd hny (by simp [isNanF])
    | inf => simp [cmpF, keyF]
    | ninf => simp [cmpF, keyF]
    | fin L => simp [cmpF, keyF]
  | ninf =>
    cases y with
    | nan => exact absurd hny (by simp [isNanF])
    | inf => simp [cmpF, keyF]
    | ninf => simp [cmpF, keyF]
    | fin L => simp [cmpF, keyF]
  | fin L₁ =>
    cases y with
    | nan => exact absurd hny (by simp [isNanF])
    | inf => simp [cmpF, keyF]
    | ninf => simp [cmpF, keyF]
    | fin L₂ =>
      have hpos : posTerms (L₁ ++ negTerms L₂) :=
        posTerms_append _ _ hx (posTerms_negTerms _ hy)
      simp only [cmpF, Option.some.injEq, keyF, EReal.coe_eq_coe_iff]
      rw [signTerms_eq_iff _ hpos, denTerms_append, denTerms_negTerms]
      constructor
      · intro h; linarith
      · intro h; linarith

theorem cmpF_isSome (x y : F32) (hnx : isNanF x = false) (hny : isNanF y = false) :
    (cmpF x y).isSome = true := by
  cases x with
  | nan => exact absurd hnx (by simp [isNanF])
  | inf =>
    cases y with
    | nan => exact absurd hny (by simp [isNanF])
    | inf => simp [cmpF]
    | ninf => simp [cmpF]
    | fin L => simp [cmpF]
  | ninf =>
    cases y with
    | nan => exact absurd hny (by simp [isNanF])
    | inf => simp [cmpF]
    | ninf => simp [cmpF]
    | fin L => simp [cmpF]
  | fin L₁ =>
    cases y with
    | nan => exact absurd hny (by simp [isNanF])
    | inf => simp [cmpF]
    | ninf => simp [cmpF]
    | fin L₂ => simp [cmpF]

theorem wfF_mulF (x y : F32) (hx : wfF x) (hy : wfF y) : wfF (mulF x y) := by
  cases x with
  | nan => simp [mulF, wfF]
  | inf =>
    cases y with
    | nan => simp [mulF, wfF]
    | inf => simp [mulF, wfF]
    | ninf => simp [mulF, wfF]
    | fin L =>
      simp only [mulF]
      rcases signTerms L with _ | _ | _ <;> simp [wfF]
  | ninf =>
    cases y with
    | nan => simp [mulF, wfF]
    | inf => simp [mulF, wfF]
    | ninf => simp [mulF, wfF]
    | fin L =>
      simp only [mulF]
      rcases signTerms L with _ | _ | _ <;> simp [wfF]
  | fin L₁ =>
    cases y with
    | nan => simp [mulF, wfF]
    | inf =>
      simp only [mulF]
      rcases signTerms L₁ with _ | _ | _ <;> simp [wfF]
    | ninf =>
      simp only [mulF]
      rcases signTerms L₁ with _ | _ | _ <;> simp [wfF]
    | fin L₂ =>
      simp only [mulF]
      rcases asScalar L₁ with _ | r
      · rcases asScalar L₂ with _ | r
        · simp [wfF]
        · simpa [wfF] using posTerms_scaleTerms r L₁ hx
      · simpa [wfF] using posTerms_scaleTerms r L₂ hy

theorem wfF_addF (x y : F32) (hx : wfF x) (hy : wfF y) : wfF (addF x y) := by
  cases x with
  | nan => simp [addF, wfF]
  | inf => cases y <;> simp [addF, wfF]
  | ninf => cases y <;> simp [addF, wfF]
  | fin L₁ =>
    cases y with
    | nan => simp [addF, wfF]
    | inf => simp [addF, wfF]
    | ninf => simp [addF, wfF]
    | fin L₂ =>
      simpa [addF, wfF] using posTerms_append L₁ L₂ hx hy

/-! ## Bookkeeping lemmas for the add/remove folds -/
theorem aget_dfDecr (df : List (String × ℕ)) (k t : String) :
    aget (dfDecr df k) t =
      if k = t then (aget df t).map (fun v => v - 1) else aget df t := by
  by_cases h : k = t
  · subst h
    unfold dfDecr
    rcases hg : aget df k with _ | f
    · simp [hg]
    · simp [aget_aset_self]
  · unfold dfDecr
    rcases hg : aget df k with _ | f
    · simp [h]
    · simp [h, aget_aset_ne df k t _ h]

theorem aget_foldl_dfDecr (ks : List String) (df : List (String × ℕ)) (t : String) :
    aget (ks.foldl dfDecr df) t = (aget df t).map (fun v => v - ks.count t) := by
  induction ks generalizing df with
  | nil =>
    cases hg : aget df t <;> simp [hg]
  | cons k ks ih =>
    simp only [List.foldl_cons, ih (dfDecr df k), aget_dfDecr]
    by_cases h : k = t
    · subst h
      cases hg : aget df k with
      | none => simp [hg]
      | some v =>
        have hc : (k :: ks).count k = ks.count k + 1 := by
          simp [List.count_cons]
        simp [hg, hc]
        omega
    · have hc : (k :: ks).count t = ks.count t := by
        simp [List.count_cons, h]
      simp [h, hc]

theorem aget_dfIncr (df : List (String × ℕ)) (k t : String) :
    aget (dfIncr df k) t =
      if k = t then some ((aget df t).getD 0 + 1) else aget df t := by
  by_cases h : k = t
  · subst h
    unfold dfIncr
    rcases hg : aget df k with _ | f
    · simp [hg, aget_aset_self]
    · simp [hg, aget_aset_self]
  · unfold dfIncr
    rcases hg : aget df k with _ | f
    · simp [h, aget_aset_ne df k t _ h]
    · simp [h, aget_aset_ne df k t _ h]

theorem aget_foldl_dfIncr (ks : List String) (df : List (String × ℕ)) (t : String) :
    aget (ks.foldl dfIncr df) t =
      if ks.count t = 0 then aget df t
      else some ((aget df t).getD 0 + ks.count t) := by
  induction ks generalizing df with
  | nil => simp
  | cons k ks ih =>
    simp only [List.foldl_cons, ih (dfIncr df k), aget_dfIncr]
    by_cases h : k = t
    · subst h
      have hc : (k :: ks).count k = ks.count k + 1 := by
        simp [List.count_cons]
      by_cases h0 : ks.count k = 0
      · simp [hc, h0]
      · simp [hc, h0]
        try omega
    · have hc : (k :: ks).count t = ks.count t := by
        simp [List.count_cons, h]
      simp [h, hc]

theorem tfIncr_eq_dfIncr : tfIncr = dfIncr := rfl

theorem nodupKeys_foldl_tfIncr (tokens : List String) (tf : List (String × ℕ))
    (h : nodupKeys tf) : nodupKeys (tokens.foldl tfIncr tf) := by
  induction tokens generalizing tf with
  | nil => exact h
  | cons tok tokens ih =>
    simp only [List.foldl_cons]
    apply ih
    unfold tfIncr
    rcases aget tf tok with _ | f
    · exact nodupKeys_aset tf tok 1 h
    · exact nodupKeys_aset tf tok (f + 1) h

theorem mem_of_mem_aremove {α : Type} (l : List (String × α)) (k : String)
    (pd : String × α) (h : pd ∈ aremove l k) : pd ∈ l := by
  induction l with
  | nil => simp [aremove] at h
  | cons q rest ih =>
    obtain ⟨k₀, v₀⟩ := q
    by_cases h₀ : k₀ = k
    · subst h₀
      simp only [aremove, if_pos rfl] at h
      exact List.mem_cons_of_mem _ h
    · simp only [aremove, if_neg h₀, List.mem_cons] at h
      rcases h with h | h
      · exact h ▸ List.mem_cons_self _ _
      · exact List.mem_cons_of_mem _ (ih h)

theorem mem_aset_elim {α : Type} (l : List (String × α)) (k : String) (v : α)
    (pd : String × α) (h : pd ∈ aset l k v) : pd ∈ l ∨ pd = (k, v) := by
  induction l with
  | nil => simpa [aset] using h
  | cons q rest ih =>
    obtain ⟨k₀, v₀⟩ := q
    by_cases h₀ : k₀ = k
    · subst h₀
      rw [aset, if_pos rfl] at h
      rcases List.mem_cons.mp h with h | h
      · exact Or.inr h
      · exact Or.inl (List.mem_cons_of_mem _ h)
    · rw [aset, if_neg h₀] at h
      rcases List.mem_cons.mp h with h | h
      · exact Or.inl (h ▸ List.mem_cons_self _ _)
      · rcases ih h with h' | h'
        · exact Or.inl (List.mem_cons_of_mem _ h')
        · exact Or.inr h'

theorem aset_eq_append_of_aget_none {α : Type} (l : List (String × α))
    (k : String) (v : α) (h : aget l k = none) : aset l k v = l ++ [(k, v)] := by
  induction l with
  | nil => simp [aset]
  | cons q rest ih =>
    obtain ⟨k₀, v₀⟩ := q
    by_cases h₀ : k₀ = k
    · simp [aget, h₀] at h
    · simp only [aget, if_neg h₀] at h
      simp [aset, h₀, ih h]

theorem countP_aremove {α : Type} (l : List (String × α)) (k : String) (v : α)
    (f : String × α → Bool) (hnd : nodupKeys l) (hget : aget l k = some v) :
    l.countP f = (aremove l k).countP f + (if f (k, v) then 1 else 0) := by
  induction l with
  | nil => simp [aget] at hget
  | cons q rest ih =>
    obtain ⟨k₀, v₀⟩ := q
    simp only [nodupKeys, keysList, List.map_cons, List.nodup_cons] at hnd
    by_cases h₀ : k₀ = k
    · subst h₀
      have hv : v₀ = v := by simpa [aget] using hget
      subst hv
      simp only [aremove, if_pos rfl, List.countP_cons]
      by_cases hf : f (k₀, v₀)
      · simp [hf]
      · simp [hf]
    · simp only [aget, if_neg h₀] at hget
      simp only [aremove, if_neg h₀, List.countP_cons, ih hnd.2 hget]
      omega

theorem aget_mem {α : Type} (l : List (String × α)) (k : String) (v : α)
    (h : aget l k = some v) : (k, v) ∈ l := by
  induction l with
  | nil => simp [aget] at h
  | cons q rest ih =>
    obtain ⟨k₀, v₀⟩ := q
    by_cases h₀ : k₀ = k
    · subst h₀
      have hv : v₀ = v := by simpa [aget] using h
      subst hv
      exact List.mem_cons_self _ _
    · simp only [aget, if_neg h₀] at h
      exact List.mem_cons_of_mem _ (ih h)

theorem remove_document_none (m : Model) (p : String)
    (hg : aget m.docs p = none) : remove_document m p = m := by
  unfold remove_document
  rw [hg]

theorem remove_document_some (m : Model) (p : String) (doc : Doc)
    (hg : aget m.docs p = some doc) :
    remove_document m p =
      { docs := aremove m.docs p
        df := (keysList doc.tf).foldl dfDecr m.df } := by
  unfold remove_document
  rw [hg]

theorem foldl_pair_split (tokens : List String) (tf0 : List (String × ℕ)) (c0 : ℕ) :
    tokens.foldl (fun acc t => (tfIncr acc.1 t, acc.2 + 1)) (tf0, c0) =
      (tokens.foldl tfIncr tf0, c0 + tokens.length) := by
  induction tokens generalizing tf0 c0 with
  | nil => simp
  | cons tok tokens ih =>
    simp only [List.foldl_cons, ih, List.length_cons, Prod.mk.injEq]
    exact ⟨trivial, by omega⟩

theorem add_document_eq (stem : String → String) (m : Model) (p : String)
    (lm : ℕ) (content : List Char) :
    add_document stem m p lm content =
      { docs := aset (remove_document m p).docs p
          ⟨(tokenize stem content).foldl tfIncr [], (tokenize stem content).length, lm⟩
        df := (keysList ((tokenize stem content).foldl tfIncr [])).foldl dfIncr
          (remove_document m p).df } := by
  unfold add_document
  simp only [foldl_pair_split, Nat.zero_add]

theorem count_keys_eq_indicator (tf : List (String × ℕ)) (t : String)
    (hnd : nodupKeys tf) :
    (keysList tf).count t = (if (aget tf t).isSome then 1 else 0) := by
  by_cases hmem : t ∈ keysList tf
  · rw [(aget_isSome_iff_mem_keys tf t).mpr hmem]
    simp only [if_pos rfl]
    exact List.count_eq_one_of_mem hnd hmem
  · have hs : (aget tf t).isSome = false := by
      rcases hx : aget tf t with _ | v
      · rfl
      · exact absurd ((aget_isSome_iff_mem_keys tf t).mp (by simp [hx])) hmem
    rw [hs]
    simp only [Bool.false_eq_true, if_false]
    exact List.count_eq_zero.mpr hmem

theorem IndexInv_remove_document (m : Model) (p : String) (h : IndexInv m) :
    IndexInv (remove_document m p) := by
  obtain ⟨hnd, htf, hdf⟩ := h
  rcases hg : aget m.docs p with _ | doc
  · rw [remove_document_none m p hg]
    exact ⟨hnd, htf, hdf⟩
  · rw [remove_document_some m p doc hg]
    have hdoc_nodup : nodupKeys doc.tf := htf (p, doc) (aget_mem _ _ _ hg)
    refine ⟨nodupKeys_aremove _ _ hnd, ?_, ?_⟩
    · intro pd hpd
      exact htf pd (mem_of_mem_aremove _ _ _ hpd)
    · intro t
      have hrel := countP_aremove m.docs p doc
        (fun pd => (aget pd.2.tf t).isSome) hnd hg
      have hcount := count_keys_eq_indicator doc.tf t hdoc_nodup
      have hval := hdf t
      simp only at hrel
      dsimp only
      rw [aget_foldl_dfDecr, hcount]
      unfold dfCount at hval ⊢
      rcases hs : (aget doc.tf t).isSome with _ | _
      · simp only [hs, Bool.false_eq_true, if_false] at hrel ⊢
        rcases hv : aget m.df t with _ | v
        · rw [hv] at hval
          simp at hval ⊢
          omega
        · rw [hv] at hval
          simp at hval ⊢
          omega
      · simp [hs] at hrel ⊢
        rcases hv : aget m.df t with _ | v
        · rw [hv] at hval
          simp at hval ⊢
          omega
        · rw [hv] at hval
          simp at hval ⊢
          omega

theorem aget_docs_remove_document (m : Model) (p : String)
    (hnd : nodupKeys m.docs) : aget (remove_document m p).docs p = none := by
  rcases hg : aget m.docs p with _ | doc
  · rw [remove_document_none m p hg]
    exact hg
  · rw [remove_document_some m p doc hg]
    exact aget_aremove_self_of_nodup m.docs p hnd

theorem IndexInv_add_document (stem : String → String) (m : Model) (p : String)
    (lm : ℕ) (content : List Char) (h : IndexInv m) :
    IndexInv (add_document stem m p lm content) := by
  have hp : aget (remove_document m p).docs p = none :=
    aget_docs_remove_document m p h.1
  obtain ⟨hnd₁, htf₁, hdf₁⟩ := IndexInv_remove_document m p h
  have htfnd : nodupKeys ((tokenize stem content).foldl tfIncr []) :=
    nodupKeys_foldl_tfIncr _ _ (by simp [nodupKeys, keysList])
  rw [add_document_eq]
  refine ⟨?_, ?_, ?_⟩
  · exact nodupKeys_aset _ _ _ hnd₁
  · intro pd hpd
    dsimp only at hpd
    rcases mem_aset_elim _ _ _ _ hpd with h' | h'
    · exact htf₁ pd h'
    · subst h'
      exact htfnd
  · intro t
    dsimp only
    rw [aset_eq_append_of_aget_none _ _ _ hp]
    have hcount := count_keys_eq_indicator _ t htfnd
    rw [aget_foldl_dfIncr]
    unfold dfCount
    rw [List.countP_append]
    have hdf₁t := hdf₁ t
    unfold dfCount at hdf₁t
    rcases hs : (aget ((tokenize stem content).foldl tfIncr []) t).isSome with _ | _
    · rw [hs] at hcount
      simp only [Bool.false_eq_true, if_false] at hcount
      rw [hcount]
      simp only [if_pos rfl, List.countP_cons, List.countP_nil]
      simp [hdf₁t, hs]
    · rw [hs] at hcount
      simp only [if_pos rfl] at hcount
      rw [hcount]
      simp only [Nat.one_ne_zero, if_neg, List.countP_cons, List.countP_nil]
      simp [hs]
      omega

theorem IndexInv_empty : IndexInv ⟨[], []⟩ := by
  refine ⟨?_, ?_, ?_⟩
  · simp [nodupKeys, keysList]
  · intro pd hpd
    simp at hpd
  · intro t
    simp [aget, dfCount]

theorem IndexInv_applyOp (stem : String → String) (m : Model) (op : Op)
    (h : IndexInv m) : IndexInv (applyOp stem m op) := by
  cases op with
  | add p lm content => exact IndexInv_add_document stem m p lm content h
  | remove p => exact IndexInv_remove_document m p h

theorem IndexInv_foldl (stem : String → String) (ops : List Op) (m : Model)
    (h : IndexInv m) : IndexInv (ops.foldl (applyOp stem) m) := by
  induction ops generalizing m with
  | nil => exact h
  | cons op ops ih =>
    simp only [List.foldl_cons]
    exact ih _ (IndexInv_applyOp stem m op h)

theorem IndexInv_applyOps (stem : String → String) (ops : List Op) :
    IndexInv (applyOps stem ops) :=
  IndexInv_foldl stem ops ⟨[], []⟩ IndexInv_empty

theorem next_token_shape (stem : String → String) (s : List Char) (t : String)
    (rest : List Char) (h : next_token stem s = some (t, rest)) :
    TokenShape stem t := by
  unfold next_token at h
  rcases htrim : trim_left s with _ | ⟨c, cs⟩ <;> rw [htrim] at h
  · exact Option.noConfusion h
  · by_cases ha : c.isAlpha
    · left
      simp only [if_pos ha, Option.some.injEq, Prod.mk.injEq] at h
      exact ⟨_, h.1.symm⟩
    · by_cases hd : c.isDigit
      · right
        left
        simp only [if_neg ha, if_pos hd, Option.some.injEq, Prod.mk.injEq] at h
        refine ⟨(c :: cs).takeWhile Char.isDigit, ?_, ?_, h.1.symm⟩
        · rw [List.takeWhile_cons_of_pos hd]
          simp
        · intro x hx
          exact List.mem_takeWhile_imp hx
      · right
        right
        simp only [if_neg ha, if_neg hd, Option.some.injEq, Prod.mk.injEq] at h
        exact ⟨c, by simpa using ha, by simpa using hd, h.1.symm⟩

theorem tokenize_shape_aux (stem : String → String) :
    ∀ n : ℕ, ∀ s : List Char, s.length ≤ n →
      ∀ t ∈ tokenize stem s, TokenShape stem t := by
  intro n
  induction n with
  | zero =>
    intro s hs t ht
    have hnil : s = [] := List.length_eq_zero.mp (Nat.le_zero.mp hs)
    subst hnil
    rw [tokenize_eq, next_token_nil] at ht
    simp at ht
  | succ n ih =>
    intro s hs t ht
    rw [tokenize_eq] at ht
    rcases h : next_token stem s with _ | ⟨t', rest⟩ <;> rw [h] at ht
    · simp at ht
    · rcases List.mem_cons.mp ht with h' | h'
      · exact h' ▸ next_token_shape stem s t' rest h
      · have hlt := next_token_progress stem s t' rest h
        exact ih rest (by omega) t h'

theorem tokenize_shape (stem : String → String) (s : List Char) :
    ∀ t ∈ tokenize stem s, TokenShape stem t :=
  tokenize_shape_aux stem s.length s (le_refl _)

theorem stem_fixes_token (stem : String → String) (hs : StemSpec stem)
    (t : String) (h : TokenShape stem t) : stem t = t := by
  rcases h with ⟨w, rfl⟩ | ⟨cs, hne, hdig, rfl⟩ | ⟨c, ha, hd, rfl⟩
  · exact hs.idem w
  · exact hs.digits cs hne hdig
  · exact hs.fallback c ha hd

theorem foldl_congr_mem {α β : Type} (l : List α) (f g : β → α → β) (b : β)
    (h : ∀ b' : β, ∀ a ∈ l, f b' a = g b' a) : l.foldl f b = l.foldl g b := by
  induction l generalizing b with
  | nil => rfl
  | cons a l ih =>
    simp only [List.foldl_cons]
    rw [h b a (List.mem_cons_self a l)]
    exact ih _ (fun b' a' ha' => h b' a' (List.mem_cons_of_mem a ha'))

/-! ## Well-formedness of the scores the program computes -/
theorem wfF_compute_tf (term : String) (doc : Doc) : wfF (compute_tf term doc) := by
  unfold compute_tf
  by_cases hb : ((doc.count : ℚ)) = 0
  · by_cases ha : ((((aget doc.tf term).getD 0 : ℕ) : ℚ)) = 0
    · simp [hb, ha, wfF]
    · simp [hb, ha, wfF]
  · simp only [hb, if_false]
    intro p hp
    simp at hp
    subst hp
    norm_num

theorem wfF_compute_idf (term : String) (n_docs : ℕ) (df : List (String × ℕ)) :
    wfF (compute_idf term n_docs df) := by
  unfold compute_idf
  by_cases hm : ((((aget df term).getD 1 : ℕ) : ℚ)) = 0
  · by_cases hn : ((n_docs : ℚ)) = 0
    · simp [hm, hn, wfF]
    · simp [hm, hn, wfF]
  · by_cases hn : ((n_docs : ℚ)) = 0
    · simp [hm, hn, wfF]
    · simp only [hm, hn, if_false]
      intro p hp
      simp at hp
      subst hp
      have hmpos : 0 < (((aget df term).getD 1 : ℕ) : ℚ) := by
        rcases Nat.eq_zero_or_pos ((aget df term).getD 1) with h0 | h0
        · exact absurd (by exact_mod_cast h0) hm
        · exact_mod_cast h0
      have hnpos : 0 < ((n_docs : ℚ)) := by
        rcases Nat.eq_zero_or_pos n_docs with h0 | h0
        · exact absurd (by exact_mod_cast h0) hn
        · exact_mod_cast h0
      exact div_pos hnpos hmpos

theorem wfF_docRank (stem : String → String) (tokens : List String) (n_docs : ℕ)
    (df : List (String × ℕ)) (doc : Doc) : wfF (docRank stem tokens n_docs df doc) := by
  unfold docRank
  have h : ∀ acc : F32, wfF acc → wfF (tokens.foldl
      (fun rank token => addF rank (mulF (compute_tf (stem token) doc)
        (compute_idf (stem token) n_docs df))) acc) := by
    induction tokens with
    | nil => intro acc hacc; exact hacc
    | cons tok tokens ih =>
      intro acc hacc
      simp only [List.foldl_cons]
      exact ih _ (wfF_addF _ _ hacc
        (wfF_mulF _ _ (wfF_compute_tf _ _) (wfF_compute_idf _ _ _)))
  exact h (F32.fin []) (by intro p hp; simp at hp)

/-! ## Sorting lemmas (claim C6) -/
theorem mem_insertSorted {α : Type} (le : α → α → Bool) (x : α) (l : List α)
    (y : α) : y ∈ insertSorted le x l ↔ y = x ∨ y ∈ l := by
  induction l with
  | nil => simp [insertSorted]
  | cons z l ih =>
    unfold insertSorted
    by_cases h : le x z
    · simp [h]
    · simp only [h, Bool.false_eq_true, if_false, List.mem_cons, ih]
      tauto

theorem mem_isort {α : Type} (le : α → α → Bool) (l : List α) (y : α) :
    y ∈ isort le l ↔ y ∈ l := by
  induction l with
  | nil => simp [isort]
  | cons z l ih =>
    unfold isort
    rw [mem_insertSorted, ih]
    simp

theorem pairwise_insertSorted {α : Type} (le : α → α → Bool) (Q : α → Prop)
    (htot : ∀ a b, Q a → Q b → le a b = true ∨ le b a = true)
    (htrans : ∀ a b c, Q a → Q b → Q c → le a b = true → le b c = true →
      le a c = true)
    (x : α) (l : List α) (hx : Q x) (hl : ∀ y ∈ l, Q y)
    (hp : l.Pairwise (fun a b => le a b = true)) :
    (insertSorted le x l).Pairwise (fun a b => le a b = true) := by
  induction l with
  | nil => simp [insertSorted]
  | cons z l ih =>
    have hz : Q z := hl z (List.mem_cons_self z l)
    have hl' : ∀ y ∈ l, Q y := fun y hy => hl y (List.mem_cons_of_mem z hy)
    rcases List.pairwise_cons.mp hp with ⟨hzl, hpl⟩
    unfold insertSorted
    by_cases h : le x z
    · simp only [h, if_true]
      refine List.pairwise_cons.mpr ⟨?_, hp⟩
      intro y hy
      rcases List.mem_cons.mp hy with rfl | hy'
      · exact h
      · exact htrans x z y hx hz (hl' y hy') h (hzl y hy')
    · simp only [h, Bool.false_eq_true, if_false]
      have hzx : le z x = true := by
        rcases htot x z hx hz with h' | h'
        · exact absurd h' (by simpa using h)
        · exact h'
      refine List.pairwise_cons.mpr ⟨?_, ih hl' hpl⟩
      intro y hy
      rcases (mem_insertSorted le x l y).mp hy with rfl | hy'
      · exact hzx
      · exact hzl y hy'

theorem pairwise_isort {α : Type} (le : α → α → Bool) (Q : α → Prop)
    (htot : ∀ a b, Q a → Q b → le a b = true ∨ le b a = true)
    (htrans : ∀ a b c, Q a → Q b → Q c → le a b = true → le b c = true →
      le a c = true)
    (l : List α) (hl : ∀ y ∈ l, Q y) :
    (isort le l).Pairwise (fun a b => le a b = true) := by
  induction l with
  | nil => simp [isort]
  | cons z l ih =>
    have hz : Q z := hl z (List.mem_cons_self z l)
    have hl' : ∀ y ∈ l, Q y := fun y hy => hl y (List.mem_cons_of_mem z hy)
    unfold isort
    exact pairwise_insertSorted le Q htot htrans z (isort le l) hz
      (fun y hy => hl' y ((mem_isort le l y).mp hy)) (ih hl')

theorem sortLe_iff (a b : String × F32) (hwa : wfF a.2) (hwb : wfF b.2)
    (hna : isNanF a.2 = false) (hnb : isNanF b.2 = false) :
    sortLe a b = true ↔ keyF a.2 ≤ keyF b.2 := by
  unfold sortLe
  rcases hc : cmpF a.2 b.2 with _ | o
  · have hsome := cmpF_isSome a.2 b.2 hna hnb
    rw [hc] at hsome
    simp at hsome
  · simp only [Option.getD_some, ne_eq, decide_eq_true_eq]
    cases o with
    | lt =>
      have hlt := (cmpF_eq_lt_iff a.2 b.2 hwa hwb hna hnb).mp hc
      constructor
      · intro _
        exact le_of_lt hlt
      · intro _
        simp
    | eq =>
      have heq := (cmpF_eq_eq_iff a.2 b.2 hwa hwb hna hnb).mp hc
      constructor
      · intro _
        exact le_of_eq heq
      · intro _
        simp
    | gt =>
      have hgt := (cmpF_eq_gt_iff a.2 b.2 hwa hwb hna hnb).mp hc
      constructor
      · intro h
        exact absurd rfl h
      · intro hle
        exact absurd hgt (not_lt.mpr hle)

theorem fgeB_iff (x y : F32) (hwx : wfF x) (hwy : wfF y)
    (hnx : isNanF x = false) (hny : isNanF y = false) :
    fgeB x y = true ↔ keyF y ≤ keyF x := by
  unfold fgeB
  rcases hc : cmpF x y with _ | o
  · have hsome := cmpF_isSome x y hnx hny
    rw [hc] at hsome
    simp at hsome
  · cases o with
    | lt =>
      have hlt := (cmpF_eq_lt_iff x y hwx hwy hnx hny).mp hc
      simp only [Bool.false_eq_true, false_iff, not_le]
      exact hlt
    | eq =>
      have heq := (cmpF_eq_eq_iff x y hwx hwy hnx hny).mp hc
      simp only [true_iff]
      exact le_of_eq heq.symm
    | gt =>
      have hgt := (cmpF_eq_gt_iff x y hwx hwy hnx hny).mp hc
      simp only [true_iff]
      exact le_of_lt hgt

/-! ## Claim theorems -/
/-- C1 counterexample: the claim states that when the record's total term
count is 0 the result of `term_frequency` is 0 and never NaN; but on the
empty record (`tf = ∅`, `count = 0`) the source computes `0.0 / 0.0`, which
is NaN. -/
theorem C1_counterexample : isNanF (compute_tf "a" ⟨[], 0, 0⟩) = true := by decide

/-- C1 (amended): `term_frequency` returns the exact ratio
`tf.get(term, 0) / total_terms` when `total_terms ≠ 0`; when
`total_terms = 0` there is no zero guard and the IEEE quotient is returned:
NaN when the term's stored count is also 0 (in particular on every empty
document), and `+∞` when the stored count is positive — never the value `0`
stated by the claim. -/
theorem C1_compute_tf (term : String) (doc : Doc) :
    (doc.count ≠ 0 →
      compute_tf term doc =
        F32.fin [((((aget doc.tf term).getD 0 : ℕ) : ℚ) / ((doc.count : ℕ) : ℚ), 10)]) ∧
    (doc.count = 0 → (aget doc.tf term).getD 0 = 0 → compute_tf term doc = F32.nan) ∧
    (doc.count = 0 → (aget doc.tf term).getD 0 ≠ 0 → compute_tf term doc = F32.inf) := by
  refine ⟨?_, ?_, ?_⟩
  · intro h
    unfold compute_tf
    rw [if_neg (by exact_mod_cast h)]
  · intro h h'
    unfold compute_tf
    rw [if_pos (by exact_mod_cast h), if_pos (by exact_mod_cast h')]
  · intro h h'
    unfold compute_tf
    rw [if_pos (by exact_mod_cast h), if_neg (by exact_mod_cast h')]

theorem C1_compute_tf_witness :
    compute_tf "x" ⟨[("x", 2)], 4, 0⟩ =
      F32.fin [((((aget (⟨[("x", 2)], 4, 0⟩ : Doc).tf "x").getD 0 : ℕ) : ℚ) /
        (((⟨[("x", 2)], 4, 0⟩ : Doc).count : ℕ) : ℚ), 10)] ∧
    compute_tf "x" ⟨[], 0, 0⟩ = F32.nan ∧
    compute_tf "x" ⟨[("x", 2)], 0, 0⟩ = F32.inf :=
  ⟨(C1_compute_tf "x" ⟨[("x", 2)], 4, 0⟩).1 (by decide),
    (C1_compute_tf "x" ⟨[], 0, 0⟩).2.1 (by decide) (by decide),
    (C1_compute_tf "x" ⟨[("x", 2)], 0, 0⟩).2.2 (by decide) (by decide)⟩

/-- C2 counterexample: the claim states the IDF denominator is
`max(df.get(term, 1), 1)`, never below 1, so the result is finite whenever
`N ≥ 1`.  But the source applies no `max` floor: with a stored
document-frequency entry of 0 (left behind by `remove_document`) and
`N = 1`, the quotient `1 / 0` is `+∞` and so is its `log10` — not the
finite `log10(1/1) = 0` the claimed formula gives. -/
theorem C2_counterexample :
    compute_idf "a" 1 [("a", 0)] = F32.inf ∧ F32.inf ≠ F32.fin [(1, 1)] :=
  ⟨by decide, by decide⟩

/-- C2 (amended): `inverse_document_frequency` is
`log10(N / df.get(term, 1))` with no lower bound applied to a present
entry: an absent key defaults to 1, but a stored 0 is used as-is, so the
result is `+∞` when `N ≥ 1` (and NaN when `N = 0`); for a nonzero
denominator the result is the exact `log10(N/m)` (`-∞` when `N = 0`). -/
theorem C2_compute_idf (term : String) (n_docs : ℕ) (df : List (String × ℕ)) :
    ((aget df term).getD 1 = 0 → 1 ≤ n_docs → compute_idf term n_docs df = F32.inf) ∧
    ((aget df term).getD 1 = 0 → n_docs = 0 → compute_idf term n_docs df = F32.nan) ∧
    ((aget df term).getD 1 ≠ 0 → n_docs = 0 → compute_idf term n_docs df = F32.ninf) ∧
    ((aget df term).getD 1 ≠ 0 → 1 ≤ n_docs →
      compute_idf term n_docs df =
        F32.fin [(1, ((n_docs : ℕ) : ℚ) / (((aget df term).getD 1 : ℕ) : ℚ))]) := by
  refine ⟨?_, ?_, ?_, ?_⟩
  · intro hm hn
    unfold compute_idf
    rw [if_pos (by exact_mod_cast hm), if_neg (by exact_mod_cast (by omega : n_docs ≠ 0))]
  · intro hm hn
    unfold compute_idf
    rw [if_pos (by exact_mod_cast hm), if_pos (by exact_mod_cast hn)]
  · intro hm hn
    unfold compute_idf
    rw [if_neg (by exact_mod_cast hm), if_pos (by exact_mod_cast hn)]
  · intro hm hn
    unfold compute_idf
    rw [if_neg (by exact_mod_cast hm), if_neg (by exact_mod_cast (by omega : n_docs ≠ 0))]

theorem C2_compute_idf_witness :
    compute_idf "a" 1 [("a", 0)] = F32.inf ∧
    compute_idf "a" 0 [("a", 0)] = F32.nan ∧
    compute_idf "a" 0 [] = F32.ninf ∧
    compute_idf "a" 2 [] = F32.fin [(1, (((2 : ℕ) : ℕ) : ℚ) / (((1 : ℕ) : ℕ) : ℚ))] :=
  ⟨(C2_compute_idf "a" 1 [("a", 0)]).1 (by decide) (by decide),
    (C2_compute_idf "a" 0 [("a", 0)]).2.1 (by decide) (by decide),
    (C2_compute_idf "a" 0 []).2.2.1 (by decide) (by decide),
    (C2_compute_idf "a" 2 []).2.2.2 (by decide) (by decide)⟩

/-- C8: `requires_reindexing(document_id, candidate)` is true exactly when
the document is absent or its stored `last_modified` is strictly earlier
than the candidate — in particular false when the stored timestamp equals
the candidate.  The model embeds the Rust method (which takes `&mut self`
but performs only reads) as a pure function of the index, so it has no side
effects by construction. -/
theorem C8_requires_reindexing (m : Model) (p : String) (lm : ℕ) :
    (aget m.docs p = none → requires_reindexing m p lm = true) ∧
    (∀ doc : Doc, aget m.docs p = some doc →
      (requires_reindexing m p lm = true ↔ doc.last_modified < lm)) ∧
    (∀ doc : Doc, aget m.docs p = some doc → doc.last_modified = lm →
      requires_reindexing m p lm = false) := by
  refine ⟨?_, ?_, ?_⟩
  · intro h
    unfold requires_reindexing
    rw [h]
  · intro doc h
    unfold requires_reindexing
    rw [h]
    simp
  · intro doc h he
    unfold requires_reindexing
    rw [h]
    simp [he]

theorem C8_requires_reindexing_witness :
    requires_reindexing demoModel "nope" 5 = true ∧
    (requires_reindexing demoModel "d1" 1 = true ↔
      (⟨[("cat", 1)], 1, 0⟩ : Doc).last_modified < 1) ∧
    requires_reindexing demoModel "d1" 0 = false :=
  ⟨(C8_requires_reindexing demoModel "nope" 5).1 (by decide),
    (C8_requires_reindexing demoModel "d1" 1).2.1 ⟨[("cat", 1)], 1, 0⟩ (by decide),
    (C8_requires_reindexing demoModel "d1" 0).2.2 ⟨[("cat", 1)], 1, 0⟩ (by decide) (by decide)⟩

/-- C3: starting from the empty index, after an arbitrary sequence of
`add_document`/`remove_document` operations, every term occurring in some
stored record has a document-frequency entry whose value is exactly the
number of stored documents whose `term_counts` contain the term. -/
theorem C3_df_lockstep (stem : String → String) (ops : List Op) (t : String)
    (h : ∃ pd ∈ (applyOps stem ops).docs, (aget pd.2.tf t).isSome = true) :
    aget (applyOps stem ops).df t =
      some (dfCount (applyOps stem ops).docs t) := by
  obtain ⟨-, -, hdf⟩ := IndexInv_applyOps stem ops
  have hdft := hdf t
  have hpos : 0 < dfCount (applyOps stem ops).docs t := by
    obtain ⟨pd, hpd, hsome⟩ := h
    unfold dfCount
    rw [List.countP_pos_iff]
    exact ⟨pd, hpd, by simpa using hsome⟩
  rcases hv : aget (applyOps stem ops).df t with _ | v
  · rw [hv] at hdft
    simp at hdft
    omega
  · rw [hv] at hdft
    simp at hdft
    rw [hdft]

theorem C3_df_lockstep_witness :
    aget (applyOps id [Op.add "d1" 0 ("cat".data)]).df "cat" =
      some (dfCount (applyOps id [Op.add "d1" 0 ("cat".data)]).docs "cat") :=
  C3_df_lockstep id [Op.add "d1" 0 ("cat".data)] "cat"
    ⟨("d1", ⟨[("cat", 1)], 1, 0⟩), by decide, by decide⟩

/-- C4: `remove_document` is a no-op (not an error) when the document is
absent; when present in a well-formed index it deletes the record and
decrements the df entry of every distinct term of the record by exactly
one; and a df counter found already at 0 makes the `*f -= 1` underflow,
which debug builds assert (panic on the overflow check, captured by
`removeUnderflow`) rather than silently ignore. -/
theorem C4_remove_document (m : Model) (p : String) :
    (aget m.docs p = none → remove_document m p = m) ∧
    (∀ doc : Doc, aget m.docs p = some doc → nodupKeys m.docs → nodupKeys doc.tf →
      aget (remove_document m p).docs p = none ∧
      (∀ t v, t ∈ keysList doc.tf → aget m.df t = some (v + 1) →
        aget (remove_document m p).df t = some v)) ∧
    (∀ doc : Doc, aget m.docs p = some doc →
      ∀ t ∈ keysList doc.tf, aget m.df t = some 0 →
        removeUnderflow m p = true) := by
  refine ⟨?_, ?_, ?_⟩
  · exact remove_document_none m p
  · intro doc hg hnd hndtf
    rw [remove_document_some m p doc hg]
    constructor
    · exact aget_aremove_self_of_nodup m.docs p hnd
    · intro t v ht hv
      dsimp only
      rw [aget_foldl_dfDecr, hv]
      rw [List.count_eq_one_of_mem hndtf ht]
      simp
  · intro doc hg t ht hv
    unfold removeUnderflow
    rw [hg, List.any_eq_true]
    exact ⟨t, ht, by simp [hv]⟩

theorem C4_remove_document_witness :
    remove_document demoModel "nope" = demoModel ∧
    aget (remove_document demoModel "d1").docs "d1" = none ∧
    aget (remove_document demoModel "d1").df "cat" = some 0 ∧
    removeUnderflow ⟨[("d1", ⟨[("x", 1)], 1, 0⟩)], [("x", 0)]⟩ "d1" = true :=
  ⟨(C4_remove_document demoModel "nope").1 (by decide),
    ((C4_remove_document demoModel "d1").2.1 ⟨[("cat", 1)], 1, 0⟩ (by decide)
      (by decide) (by decide)).1,
    ((C4_remove_document demoModel "d1").2.1 ⟨[("cat", 1)], 1, 0⟩ (by decide)
      (by decide) (by decide)).2 "cat" 0 (by decide) (by decide),
    (C4_remove_document ⟨[("d1", ⟨[("x", 1)], 1, 0⟩)], [("x", 0)]⟩ "d1").2.2
      ⟨[("x", 1)], 1, 0⟩ (by decide) "x" (by decide) (by decide)⟩

/-- C10: `remove_document` never removes a key from the df map: every df
entry's presence is preserved; each distinct term of the removed record is
decremented in place (reaching 0 when the removed document was the last
containing it); and a later `compute_idf` for such a term uses the stored
0 — not the absent-key default 1 — so it divides by zero and returns `+∞`
for every corpus size `n ≥ 1`. -/
theorem C10_df_keys_survive (m : Model) (p : String) (doc : Doc)
    (hg : aget m.docs p = some doc) (hndtf : nodupKeys doc.tf) :
    (∀ t, (aget (remove_document m p).df t).isSome = (aget m.df t).isSome) ∧
    (∀ t v, t ∈ keysList doc.tf → aget m.df t = some v →
      aget (remove_document m p).df t = some (v - 1)) ∧
    (∀ t, t ∈ keysList doc.tf → aget m.df t = some 1 → ∀ n : ℕ, 1 ≤ n →
      compute_idf t n (remove_document m p).df = F32.inf) := by
  rw [remove_document_some m p doc hg]
  refine ⟨?_, ?_, ?_⟩
  · intro t
    dsimp only
    rw [aget_foldl_dfDecr]
    cases aget m.df t <;> simp
  · intro t v ht hv
    dsimp only
    rw [aget_foldl_dfDecr, hv, List.count_eq_one_of_mem hndtf ht]
    simp
  · intro t ht hv n hn
    dsimp only
    unfold compute_idf
    rw [aget_foldl_dfDecr, hv, List.count_eq_one_of_mem hndtf ht]
    have hne : (n : ℚ) ≠ 0 := by
      exact_mod_cast (by omega : n ≠ 0)
    simp [hne]

theorem C10_df_keys_survive_witness :
    (aget (remove_document demoModel "d1").df "cat").isSome =
      (aget demoModel.df "cat").isSome ∧
    aget (remove_document demoModel "d1").df "cat" = some (1 - 1) ∧
    compute_idf "cat" 1 (remove_document demoModel "d1").df = F32.inf :=
  ⟨(C10_df_keys_survive demoModel "d1" ⟨[("cat", 1)], 1, 0⟩ (by decide)
      (by decide)).1 "cat",
    (C10_df_keys_survive demoModel "d1" ⟨[("cat", 1)], 1, 0⟩ (by decide)
      (by decide)).2.1 "cat" 1 (by decide) (by decide),
    (C10_df_keys_survive demoModel "d1" ⟨[("cat", 1)], 1, 0⟩ (by decide)
      (by decide)).2.2 "cat" (by decide) (by decide) 1 (by decide)⟩

/-- C5: calling `add_document` twice with identical `(id, last_modified,
content)` leaves the index observably identical to calling it once: every
document lookup and every document-frequency lookup agree (this covers the
claim's `term_counts`, `total_terms` and per-term df observations).  The
second call's internal `remove_document` removes exactly the record the
first call inserted and undoes exactly its df increments. -/
theorem C5_add_document_idempotent (stem : String → String) (m : Model)
    (p : String) (lm : ℕ) (content : List Char) :
    (∀ k, aget (add_document stem (add_document stem m p lm content) p lm content).docs k =
      aget (add_document stem m p lm content).docs k) ∧
    (∀ t, aget (add_document stem (add_document stem m p lm content) p lm content).df t =
      aget (add_document stem m p lm content).df t) := by
  have hA1 := add_document_eq stem m p lm content
  have hget : aget (add_document stem m p lm content).docs p =
      some ⟨(tokenize stem content).foldl tfIncr [],
        (tokenize stem content).length, lm⟩ := by
    rw [hA1]
    exact aget_aset_self _ _ _
  have hR2 := remove_document_some (add_document stem m p lm content) p _ hget
  have hA2 := add_document_eq stem (add_document stem m p lm content) p lm content
  rw [hA2, hR2]
  constructor
  · intro k
    by_cases hk : p = k
    · subst hk
      dsimp only
      rw [aget_aset_self, hget]
    · dsimp only
      rw [aget_aset_ne _ _ _ _ hk, aget_aremove_ne _ _ _ hk]
  · intro t
    dsimp only
    rw [hA1]
    dsimp only
    rw [aget_foldl_dfIncr, aget_foldl_dfDecr, aget_foldl_dfIncr]
    by_cases hc : (keysList ((tokenize stem content).foldl tfIncr [])).count t = 0
    · simp only [hc, if_pos rfl]
      cases aget (remove_document m p).df t <;> simp
    · simp only [hc, if_neg hc]
      simp [hc]

/-- C9: the tokenizer always terminates on finite input and yields a finite
token sequence: every emitted token consumes at least one character of the
remaining input (strict decrease of the remaining length), the fallback
branch consumes exactly one character (leaving precisely the tail of the
trimmed input), the stream ends exactly when the input left after
whitespace-trimming is empty, and any fuel of at least `s.length` steps
computes the same token sequence — the iteration always reaches the
terminal state within `s.length` steps. -/
theorem C9_lexer_terminates (stem : String → String) (s : List Char) :
    (∀ t rest, next_token stem s = some (t, rest) → rest.length < s.length) ∧
    (next_token stem s = none ↔ trim_left s = []) ∧
    (∀ c cs, trim_left s = c :: cs → c.isAlpha = false → c.isDigit = false →
      next_token stem s = some (String.mk [c], cs)) ∧
    (∀ fuel, s.length ≤ fuel → tokenizeFuel stem fuel s = tokenize stem s) := by
  refine ⟨next_token_progress stem s, next_token_none_iff stem s, ?_, ?_⟩
  · intro c cs htrim ha hd
    unfold next_token
    rw [htrim]
    simp [ha, hd]
  · intro fuel hf
    exact tokenizeFuel_congr stem fuel s.length s hf (le_refl _)

theorem C9_lexer_terminates_witness :
    ((['a'] : List Char).length < (" !a".data).length) ∧
    (next_token id (" !a".data) = none ↔ trim_left (" !a".data) = []) ∧
    next_token id (" !a".data) = some (String.mk ['!'], ['a']) ∧
    tokenizeFuel id 5 (" !a".data) = tokenize id (" !a".data) :=
  ⟨(C9_lexer_terminates id (" !a".data)).1 (String.mk ['!']) ['a'] (by decide),
    (C9_lexer_terminates id (" !a".data)).2.1,
    (C9_lexer_terminates id (" !a".data)).2.2.1 '!' ['a'] (by decide) (by decide)
      (by decide),
    (C9_lexer_terminates id (" !a".data)).2.2.2 5 (by decide)⟩

/-- C7: for every document and query text, the score `search_query`
computes for the document (`docRank`, the exact accumulation of its scoring
loop, applied to the Tokenizer's token list of the query) equals the sum
over that token list — with multiplicity, duplicates not deduplicated, each
occurrence contributing independently — of
`term_frequency(token) · inverse_document_frequency(token)` (`scoreSum`);
consequently the whole search pipeline scores every stored document by
exactly that sum.  The loop re-stems every token; under the specification's
stemmer assumptions (`StemSpec`) re-stemming a tokenizer output is the
identity. -/
theorem C7_score_is_tfidf_sum (stem : String → String) (hs : StemSpec stem)
    (m : Model) (q : List Char) (doc : Doc) :
    docRank stem (tokenize stem q) m.docs.length m.df doc =
      scoreSum (tokenize stem q) doc m.docs.length m.df ∧
    search_query stem m q =
      (isort sortLe ((m.docs.map (fun pd =>
        (pd.1, scoreSum (tokenize stem q) pd.2 m.docs.length m.df))).filter
        (fun pr => !isNanF pr.2 && !isZeroF pr.2))).reverse := by
  have hrank : ∀ d : Doc, docRank stem (tokenize stem q) m.docs.length m.df d =
      scoreSum (tokenize stem q) d m.docs.length m.df := by
    intro d
    unfold docRank scoreSum
    rw [List.foldl_map]
    apply foldl_congr_mem
    intro b' a ha
    rw [stem_fixes_token stem hs a (tokenize_shape stem q a ha)]
  refine ⟨hrank doc, ?_⟩
  have hdef : search_query stem m q =
      (isort sortLe ((m.docs.map (fun pd =>
        (pd.1, docRank stem (tokenize stem q) m.docs.length m.df pd.2))).filter
        (fun pr => !isNanF pr.2 && !isZeroF pr.2))).reverse := rfl
  rw [hdef]
  have hmap : m.docs.map (fun pd =>
      (pd.1, docRank stem (tokenize stem q) m.docs.length m.df pd.2)) =
      m.docs.map (fun pd =>
      (pd.1, scoreSum (tokenize stem q) pd.2 m.docs.length m.df)) := by
    apply List.map_congr_left
    intro pd _
    rw [hrank pd.2]
  rw [hmap]

theorem C7_score_is_tfidf_sum_witness :
    docRank id (tokenize id ("cat cat".data)) demoModel.docs.length demoModel.df
        ⟨[("cat", 1)], 1, 0⟩ =
      scoreSum (tokenize id ("cat cat".data)) ⟨[("cat", 1)], 1, 0⟩
        demoModel.docs.length demoModel.df :=
  (C7_score_is_tfidf_sum id
    ⟨fun _ => rfl, fun _ _ _ => rfl, fun _ _ _ => rfl⟩
    demoModel ("cat cat".data) ⟨[("cat", 1)], 1, 0⟩).1

/-- C6: the sequence returned by `search_query` contains no pair whose
score is NaN or exactly `0.0` (both are filtered out before sorting), and
its pairs are sorted by score in non-strictly descending order — both in
the IEEE `f32` comparison order (`fgeB`) and with respect to the exact real
value of each score (`keyF`). -/
theorem C6_search_filtered_sorted (stem : String → String) (m : Model)
    (q : List Char) :
    (search_query stem m q).all
      (fun pr => !isNanF pr.2 && !isZeroF pr.2) = true ∧
    (search_query stem m q).Pairwise (fun a b => fgeB a.2 b.2 = true) ∧
    (search_query stem m q).Pairwise (fun a b => keyF b.2 ≤ keyF a.2) := by
  have hdef : search_query stem m q =
      (isort sortLe ((m.docs.map (fun pd =>
        (pd.1, docRank stem (tokenize stem q) m.docs.length m.df pd.2))).filter
        (fun pr => !isNanF pr.2 && !isZeroF pr.2))).reverse := rfl
  have hkept : ∀ pr ∈ (m.docs.map (fun pd =>
      (pd.1, docRank stem (tokenize stem q) m.docs.length m.df pd.2))).filter
      (fun pr => !isNanF pr.2 && !isZeroF pr.2),
      isNanF pr.2 = false ∧ isZeroF pr.2 = false ∧ wfF pr.2 := by
    intro pr hpr
    have hfil := List.mem_filter.mp hpr
    have hpred := hfil.2
    simp only [Bool.and_eq_true, Bool.not_eq_true'] at hpred
    refine ⟨hpred.1, hpred.2, ?_⟩
    rcases List.mem_map.mp hfil.1 with ⟨pd, hpd, rfl⟩
    exact wfF_docRank stem _ _ _ _
  have hsorted := pairwise_isort sortLe
    (fun pr : String × F32 => isNanF pr.2 = false ∧ wfF pr.2)
    (fun a b ha hb => by
      have hia := sortLe_iff a b ha.2 hb.2 ha.1 hb.1
      have hib := sortLe_iff b a hb.2 ha.2 hb.1 ha.1
      rcases le_total (keyF a.2) (keyF b.2) with h | h
      · exact Or.inl (hia.mpr h)
      · exact Or.inr (hib.mpr h))
    (fun a b c ha hb hc hab hbc => by
      have hia := sortLe_iff a b ha.2 hb.2 ha.1 hb.1
      have hib := sortLe_iff b c hb.2 hc.2 hb.1 hc.1
      have hic := sortLe_iff a c ha.2 hc.2 ha.1 hc.1
      exact hic.mpr (le_trans (hia.mp hab) (hib.mp hbc)))
    _ (fun y hy => ⟨(hkept y hy).1, (hkept y hy).2.2⟩)
  rw [hdef]
  refine ⟨?_, ?_, ?_⟩
  · rw [List.all_eq_true]
    intro pr hpr
    rw [List.mem_reverse, mem_isort] at hpr
    simp only [Bool.and_eq_true, Bool.not_eq_true']
    exact ⟨(hkept pr hpr).1, (hkept pr hpr).2.1⟩
  · rw [List.pairwise_reverse]
    refine List.Pairwise.imp_of_mem ?_ hsorted
    intro a b ha hb hab
    rw [mem_isort] at ha hb
    have hQa := hkept a ha
    have hQb := hkept b hb
    have hle := (sortLe_iff a b hQa.2.2 hQb.2.2 hQa.1 hQb.1).mp hab
    exact (fgeB_iff b.2 a.2 hQb.2.2 hQa.2.2 hQb.1 hQa.1).mpr hle
  · rw [List.pairwise_reverse]
    refine List.Pairwise.imp_of_mem ?_ hsorted
    intro a b ha hb hab
    rw [mem_isort] at ha hb
    have hQa := hkept a ha
    have hQb := hkept b hb
    exact (sortLe_iff a b hQa.2.2 hQb.2.2 hQa.1 hQb.1).mp hab
